import Mathlib

/-!
Verification of `restruct_pdf.py` — heading recognition, numbering-sequence
validation and section/hierarchy assembly.

The Python source is shallowly embedded below.  Conventions:

* Python strings are Lean `String`s; character-level work happens on `.data`
  (a `List Char`).  Span texts coming from the PDF extraction layer are
  single-line runs, so the embedded regex semantics assumes newline-free
  input (Python `.` / `$` subtleties for interior newlines do not arise).
* Python `float` font sizes and coordinates are modelled as `ℚ`; every value
  exercised by the spec's scenarios is exact in either representation.
* Fallible Python code (`int(...)`, `parse_numbering`, `is_next_heading`)
  returns `Option`: `none` models a raised exception.
* Recursions that are not structural use an explicit fuel argument that is
  always instantiated large enough; this keeps every definition computable
  and kernel-reducible.
-/

/-- ASCII whitespace exactly as Python's `str.split()` / `\s` treat the
characters appearing in this development: space, tab, newline, carriage
return, vertical tab, form feed.  (Python's unicode whitespace classes are
wider; no wider character occurs in the embedded scenarios.) -/
def isWs (c : Char) : Bool :=
  c.toNat = 32 || c.toNat = 9 || c.toNat = 10 || c.toNat = 13 ||
    c.toNat = 11 || c.toNat = 12

/-- ASCII decimal digit, the `\d` class restricted to ASCII (no other digits
occur in the embedded scenarios). -/
def isDigitC (c : Char) : Bool :=
  48 ≤ c.toNat && c.toNat ≤ 57

/-- Numeric value of a decimal digit character. -/
def digitValC (c : Char) : Nat := c.toNat - 48

/-- Decimal value of a digit string, most significant first
(`int`'s semantics on a plain digit sequence). -/
def digitsVal (ds : List Char) : Nat :=
  ds.foldl (fun a c => 10 * a + digitValC c) 0

/-- Strip leading and trailing whitespace (what `int(str)` does before
reading the number). -/
def stripWs (cs : List Char) : List Char :=
  ((cs.dropWhile isWs).reverse.dropWhile isWs).reverse

/-- Model of Python `int(s)` for a decimal literal: optional surrounding
whitespace, optional sign, then a non-empty digit run.  `none` models a
raised `ValueError`.  (Numeric-literal underscores and unicode digits are
not modelled; no fragment in this repository's data can contain them without
already failing the heading pattern.) -/
def pyIntL (cs : List Char) : Option Int :=
  let t := stripWs cs
  if t.isEmpty then none
  else if t.headD ' ' = '+' then
    if t.tail.isEmpty then none
    else if t.tail.all isDigitC then some (digitsVal t.tail : Int) else none
  else if t.headD ' ' = '-' then
    if t.tail.isEmpty then none
    else if t.tail.all isDigitC then some (-(digitsVal t.tail : Int)) else none
  else if t.all isDigitC then some (digitsVal t : Int)
  else none

/-- Python `s.split('.')`: split at every `'.'`, keeping empty components
(`"".split('.') == [""]`, `"1.".split('.') == ["1",""]`). -/
def splitDotL : List Char → List (List Char)
  | [] => [[]]
  | c :: cs =>
      if c = '.' then [] :: splitDotL cs
      else
        match splitDotL cs with
        | w :: ws => (c :: w) :: ws
        | [] => [[c]]

/-- `[int(x) for x in comps]`: parse each component left to right, raising
(`none`) at the first failure, exactly as the comprehension does. -/
def parseComps : List (List Char) → Option (List Int)
  | [] => some []
  | c :: cs => do
      let i ← pyIntL c
      let rest ← parseComps cs
      pure (i :: rest)

/-- `parse_numbering(num_str)` — `[int(x) for x in num_str.split('.')]`.
`none` models the `ValueError` raised when some component is not an integer
literal. -/
def parse_numbering (num_str : String) : Option (List Int) :=
  parseComps (splitDotL num_str.data)

/-- The arithmetic core of `is_next_heading` once both numbering strings
parsed.  Both lists are non-empty whenever they come from a successful
`parse_numbering` (a split always has at least one component), so the
`getLastD` / `getD` defaults are never consulted on reachable inputs and
model Python's `[-1]` / `[k]` indexing faithfully there. -/
def nextDecision (prev_nums curr_nums : List Int) : Bool :=
  if prev_nums.length = curr_nums.length then
    decide (curr_nums.dropLast = prev_nums.dropLast ∧
      curr_nums.getLastD 0 = prev_nums.getLastD 0 + 1)
  else if curr_nums.length = 1 ∧ curr_nums.headD 0 = prev_nums.headD 0 + 1 then
    true
  else if curr_nums.length = prev_nums.length + 1 ∧
      curr_nums.dropLast = prev_nums then
    true
  else if curr_nums.length < prev_nums.length then
    decide (curr_nums.dropLast = prev_nums.take (curr_nums.length - 1) ∧
      curr_nums.getLastD 0 = prev_nums.getD (curr_nums.length - 1) 0 + 1)
  else
    false

/-- `is_next_heading(prev, current)`.  `prev = none` models Python `None`;
`some ""` is also falsy in Python (`if not prev`).  The result is
`Option Bool`: `none` models a `ValueError` escaping from
`parse_numbering`. -/
def is_next_heading (prev : Option String) (current : String) : Option Bool :=
  match prev with
  | none => some true
  | some p =>
      if p = "" then some true
      else do
        let prev_nums ← parse_numbering p
        let curr_nums ← parse_numbering current
        pure (nextDecision prev_nums curr_nums)

/-- The boolean the extraction loop actually branches on.  Inside
`extract_hierarchy_checked` both arguments always come from the heading
regex's first capture group, where `parse_numbering` cannot fail, so the
`getD false` default is never consulted there (the call would otherwise
crash the Python program). -/
def nextHeadingB (prev : Option String) (current : String) : Bool :=
  (is_next_heading prev current).getD false

/-- C1: the Sequence Validator's table.  `is_successor(None, x)` is true for
every string `x`; the seven concrete entries of the spec's table hold,
including the rejection of the sibling skip `1.1 → 1.3`. -/
theorem c1_sequence_validator_table :
    (∀ x : String, is_next_heading none x = some true) ∧
    is_next_heading (some "1.1") "1.2" = some true ∧
    is_next_heading (some "1.1") "2" = some true ∧
    is_next_heading (some "1") "1.1" = some true ∧
    is_next_heading (some "1.2") "1.2.1" = some true ∧
    is_next_heading (some "4.1.6") "4.2" = some true ∧
    is_next_heading (some "1.1") "1.1" = some false ∧
    is_next_heading (some "1.1") "1.3" = some false :=
  ⟨fun _ => rfl, by decide, by decide, by decide, by decide, by decide,
    by decide, by decide⟩

/-- C8 counterexample: `is_next_heading` is not total on arbitrary strings —
with `prev = "1"` and `curr = "x"`, `parse_numbering("x")` raises
`ValueError` (modelled as `none`), which escapes from `is_next_heading`.
-/
theorem c8_total_counterexample : is_next_heading (some "1") "x" = none := by
  decide

/-- C8 (amended): `is_next_heading` never throws provided every numbering
string it actually parses is parseable — it returns `true` outright when
`prev` is `None` or empty (parsing nothing), and returns a boolean whenever
both `prev` and `curr` parse.  Inside the extraction loop both arguments
always come from the heading regex's numbering group, which is always
parseable. -/
theorem c8_total_on_parseable :
    (∀ c : String, is_next_heading none c = some true) ∧
    (∀ c : String, is_next_heading (some "") c = some true) ∧
    ∀ p c : String, (∃ pn, parse_numbering p = some pn) →
      (∃ cn, parse_numbering c = some cn) →
      ∃ b, is_next_heading (some p) c = some b := by
  refine ⟨fun _ => rfl, fun _ => rfl, fun p c hp hc => ?_⟩
  obtain ⟨pn, hpn⟩ := hp
  obtain ⟨cn, hcn⟩ := hc
  by_cases hpe : p = ""
  · exact ⟨true, by simp [is_next_heading, hpe]⟩
  · exact ⟨nextDecision pn cn, by simp [is_next_heading, hpe, hpn, hcn]⟩

/-- Witness for `c8_total_on_parseable` at `prev = "1"`, `curr = "2"`. -/
theorem c8_total_witness : ∃ b, is_next_heading (some "1") "2" = some b :=
  c8_total_on_parseable.2.2 "1" "2" ⟨[1], by decide⟩ ⟨[2], by decide⟩

/-! ### Rendering integers back to strings (for the C7 round-trip) -/

/-- Decimal digit character of `n` (consulted only with `n < 10`). -/
def digitChar10 (n : Nat) : Char :=
  if n = 0 then '0' else if n = 1 then '1' else if n = 2 then '2'
  else if n = 3 then '3' else if n = 4 then '4' else if n = 5 then '5'
  else if n = 6 then '6' else if n = 7 then '7' else if n = 8 then '8'
  else '9'

/-- Decimal rendering of a natural number, fuelled (fuel `n` suffices). -/
def natToDecF : Nat → Nat → List Char
  | 0, n => [digitChar10 n]
  | f + 1, n =>
      if n < 10 then [digitChar10 n]
      else natToDecF f (n / 10) ++ [digitChar10 (n % 10)]

/-- Python `str(n)` for a natural number. -/
def natToDec (n : Nat) : List Char := natToDecF n n

/-- Python `str(i)` for an `int`. -/
def intStrL (i : Int) : List Char :=
  if i < 0 then '-' :: natToDec i.natAbs else natToDec i.toNat

/-- Join char-list pieces with a separator (`sep.join(...)`). -/
def joinWithL (sep : List Char) : List (List Char) → List Char
  | [] => []
  | [p] => p
  | p :: ps => p ++ sep ++ joinWithL sep ps

/-- Python `str` of a list of ints: `str([1, 2]) == "[1, 2]"`.  This is what
`str(parse_numbering(a))` denotes in the spec's round-trip property. -/
def pyStrIntList (l : List Int) : String :=
  ⟨'[' :: (joinWithL [',', ' '] (l.map intStrL) ++ [']'])⟩

/-- The dot-joined decimal rendering `'.'.join(str(n) for n in l)` — the
canonical string form of a numbering. -/
def numToStr (l : List Int) : String :=
  ⟨joinWithL ['.'] (l.map intStrL)⟩

/-- C7 counterexample: the round-trip as literally stated throws.
`parse_numbering("1") == [1]`, but `str([1]) == "[1]"` and
`parse_numbering("[1]")` raises `ValueError` (modelled as `none`), so
`parse_numbering(str(parse_numbering("1")))` does not equal
`parse_numbering("1")`. -/
theorem c7_roundtrip_counterexample :
    parse_numbering "1" = some [1] ∧
    pyStrIntList [1] = "[1]" ∧
    parse_numbering (pyStrIntList [1]) = none := by
  refine ⟨by decide, by decide, by decide⟩

theorem digitsVal_append (xs : List Char) (c : Char) :
    digitsVal (xs ++ [c]) = 10 * digitsVal xs + digitValC c := by
  simp [digitsVal, List.foldl_append]

theorem digitChar10_spec {n : Nat} (hn : n < 10) :
    isDigitC (digitChar10 n) = true ∧ digitValC (digitChar10 n) = n := by
  interval_cases n <;> exact ⟨by decide, by decide⟩

theorem natToDecF_spec : ∀ f n, n ≤ f →
    natToDecF f n ≠ [] ∧ (natToDecF f n).all isDigitC = true ∧
      digitsVal (natToDecF f n) = n := by
  intro f
  induction f with
  | zero =>
      intro n hn
      have h0 : n = 0 := Nat.le_zero.mp hn
      subst h0
      exact ⟨by decide, by decide, by decide⟩
  | succ f ih =>
      intro n hn
      by_cases h : n < 10
      · obtain ⟨hd, hv⟩ := digitChar10_spec h
        refine ⟨by simp [natToDecF, h], ?_, ?_⟩
        · simp [natToDecF, h, hd]
        · simp [natToDecF, h, digitsVal, hv]
      · have h10 : 10 ≤ n := Nat.not_lt.mp h
        have hdiv : n / 10 ≤ f := by omega
        obtain ⟨h1, h2, h3⟩ := ih (n / 10) hdiv
        have hm : n % 10 < 10 := Nat.mod_lt _ (by omega)
        obtain ⟨hmd, hmv⟩ := digitChar10_spec hm
        refine ⟨by simp [natToDecF, h], ?_, ?_⟩
        · simp [natToDecF, h, List.all_append, h2, hmd]
        · rw [show natToDecF (f + 1) n
              = natToDecF f (n / 10) ++ [digitChar10 (n % 10)] by
              simp [natToDecF, h]]
          rw [digitsVal_append, h3, hmv]
          omega

theorem natToDec_spec (n : Nat) :
    natToDec n ≠ [] ∧ (natToDec n).all isDigitC = true ∧
      digitsVal (natToDec n) = n :=
  natToDecF_spec n n le_rfl

theorem isDigitC_not_ws {c : Char} (h : isDigitC c = true) : isWs c = false := by
  simp only [isDigitC, Bool.and_eq_true, decide_eq_true_eq] at h
  simp only [isWs, Bool.or_eq_false_iff, decide_eq_false_iff_not]
  omega

theorem isDigitC_ne {c : Char} (h : isDigitC c = true) :
    c ≠ '.' ∧ c ≠ '+' ∧ c ≠ '-' := by
  refine ⟨?_, ?_, ?_⟩ <;> rintro rfl <;> exact absurd h (by decide)

theorem dropWhile_of_none {p : Char → Bool} {cs : List Char}
    (h : ∀ c ∈ cs, p c = false) : cs.dropWhile p = cs := by
  cases cs with
  | nil => rfl
  | cons c cs => simp [List.dropWhile_cons, h c (by simp)]

theorem stripWs_of_noWs {cs : List Char} (h : ∀ c ∈ cs, isWs c = false) :
    stripWs cs = cs := by
  unfold stripWs
  rw [dropWhile_of_none h,
    dropWhile_of_none (fun c hc => h c (List.mem_reverse.mp hc)),
    List.reverse_reverse]

/-- `int(str(i)) == i`: parsing the decimal rendering of an integer
recovers it. -/
theorem pyIntL_intStrL (i : Int) : pyIntL (intStrL i) = some i := by
  by_cases hi : i < 0
  · obtain ⟨hne, hall, hval⟩ := natToDec_spec i.natAbs
    have hnows : ∀ c ∈ ('-' :: natToDec i.natAbs), isWs c = false := by
      intro c hc
      rcases List.mem_cons.mp hc with h | h
      · subst h; decide
      · exact isDigitC_not_ws (by
          have := List.all_eq_true.mp hall c h
          simpa using this)
    have hminus : intStrL i = '-' :: natToDec i.natAbs := by
      simp [intStrL, if_pos hi]
    have hE : (natToDec i.natAbs).isEmpty = false := by
      simp [List.isEmpty_iff, hne]
    rw [hminus]
    simp only [pyIntL, stripWs_of_noWs hnows, List.isEmpty_cons, List.headD,
      List.tail_cons, hE, hall, hval, Bool.false_eq_true, if_false, if_true,
      show ¬(('-' : Char) = '+') from by decide, ite_true, ite_false, if_neg,
      Option.some.injEq]
    omega
  · obtain ⟨hne, hall, hval⟩ := natToDec_spec i.toNat
    obtain ⟨d, ds, hds⟩ := List.exists_cons_of_ne_nil hne
    have hd : isDigitC d = true := by
      have := List.all_eq_true.mp hall d (by rw [hds]; simp)
      simpa using this
    obtain ⟨_, hdp, hdm⟩ := isDigitC_ne hd
    have hnows : ∀ c ∈ natToDec i.toNat, isWs c = false := by
      intro c hc
      exact isDigitC_not_ws (by
        have := List.all_eq_true.mp hall c hc
        simpa using this)
    have hid : intStrL i = natToDec i.toNat := by
      simp [intStrL, if_neg hi]
    have hE : (natToDec i.toNat).isEmpty = false := by
      simp [List.isEmpty_iff, hne]
    rw [hid, hds]
    have hnows' : stripWs (d :: ds) = d :: ds := by
      rw [← hds]; exact stripWs_of_noWs hnows
    have hall' : (d :: ds).all isDigitC = true := by rw [← hds]; exact hall
    have hval' : digitsVal (d :: ds) = i.toNat := by rw [← hds]; exact hval
    simp only [pyIntL, hnows', List.isEmpty_cons, List.headD, List.tail_cons,
      Bool.false_eq_true, if_false, if_true, hall', hval', if_neg hdp,
      if_neg hdm, Option.some.injEq]
    omega

theorem splitDotL_ne_nil : ∀ cs : List Char, ∃ w ws, splitDotL cs = w :: ws := by
  intro cs
  induction cs with
  | nil => exact ⟨[], [], rfl⟩
  | cons c cs ih =>
      obtain ⟨w, ws, hws⟩ := ih
      by_cases hc : c = '.'
      · exact ⟨[], w :: ws, by simp [splitDotL, hc, hws]⟩
      · exact ⟨c :: w, ws, by simp [splitDotL, hc, hws]⟩

theorem splitDotL_append : ∀ p : List Char, (∀ c ∈ p, c ≠ '.') →
    ∀ cs w ws, splitDotL cs = w :: ws →
      splitDotL (p ++ cs) = (p ++ w) :: ws := by
  intro p
  induction p with
  | nil => intro _ cs w ws h; simpa using h
  | cons c p ih =>
      intro hp cs w ws h
      have hc : c ≠ '.' := hp c (by simp)
      have := ih (fun x hx => hp x (by simp [hx])) cs w ws h
      simp [splitDotL, hc, this]

theorem splitDot_joinWith : ∀ parts : List (List Char), parts ≠ [] →
    (∀ p ∈ parts, ∀ c ∈ p, c ≠ '.') →
    splitDotL (joinWithL ['.'] parts) = parts := by
  intro parts
  induction parts with
  | nil => intro h; exact absurd rfl h
  | cons p rest ih =>
      intro _ hnd
      cases rest with
      | nil =>
          have : splitDotL (p ++ []) = (p ++ []) :: [] :=
            splitDotL_append p (hnd p (by simp)) [] [] [] rfl
          simpa [joinWithL] using this
      | cons q rest' =>
          have hrest := ih (by simp) (fun x hx c hc => hnd x (by simp [hx]) c hc)
          have hj : joinWithL ['.'] (p :: q :: rest')
              = p ++ ('.' :: joinWithL ['.'] (q :: rest')) := by
            simp [joinWithL]
          have hdot : splitDotL ('.' :: joinWithL ['.'] (q :: rest'))
              = [] :: (q :: rest') := by
            simp [splitDotL, hrest]
          have := splitDotL_append p (hnd p (by simp)) _ _ _ hdot
          rw [hj, this]
          simp

theorem parseComps_map_intStrL : ∀ l : List Int,
    parseComps (l.map intStrL) = some l := by
  intro l
  induction l with
  | nil => rfl
  | cons i l ih => simp [parseComps, pyIntL_intStrL, ih]

theorem intStrL_no_dot (i : Int) : ∀ c ∈ intStrL i, c ≠ '.' := by
  intro c hc
  unfold intStrL at hc
  by_cases hi : i < 0
  · rw [if_pos hi] at hc
    rcases List.mem_cons.mp hc with h | h
    · subst h; decide
    · exact (isDigitC_ne (by
        have := List.all_eq_true.mp (natToDec_spec i.natAbs).2.1 c h
        simpa using this)).1
  · rw [if_neg hi] at hc
    exact (isDigitC_ne (by
      have := List.all_eq_true.mp (natToDec_spec i.toNat).2.1 c hc
      simpa using this)).1

theorem parse_numbering_ne_nil {a : String} {l : List Int}
    (h : parse_numbering a = some l) : l ≠ [] := by
  intro hl
  subst hl
  obtain ⟨w, ws, hws⟩ := splitDotL_ne_nil a.data
  rw [parse_numbering, hws] at h
  cases hx : pyIntL w with
  | none => rw [parseComps, hx] at h; simp at h
  | some x =>
      rw [parseComps, hx] at h
      cases hy : parseComps ws with
      | none => rw [hy] at h; simp at h
      | some ys => rw [hy] at h; simp at h

/-- C7 (amended): the round-trip holds once `str` is read as the
dot-joined decimal rendering of the numbering (`'.'.join(map(str, nums))`)
rather than Python's literal `str` of a list: whenever `parse_numbering a`
succeeds, re-parsing that rendering gives the same component list. -/
theorem c7_roundtrip_amended (a : String) (l : List Int)
    (h : parse_numbering a = some l) :
    parse_numbering (numToStr l) = some l := by
  have hne : l ≠ [] := parse_numbering_ne_nil h
  have hnd : ∀ p ∈ l.map intStrL, ∀ c ∈ p, c ≠ '.' := by
    intro p hp c hc
    obtain ⟨i, _, rfl⟩ := List.mem_map.mp hp
    exact intStrL_no_dot i c hc
  rw [parse_numbering,
    show (numToStr l).data = joinWithL ['.'] (l.map intStrL) from rfl,
    splitDot_joinWith _ (by simpa using hne) hnd]
  exact parseComps_map_intStrL l

/-- Witness for `c7_roundtrip_amended` at the numbering `"4.1.6"`. -/
theorem c7_roundtrip_witness :
    parse_numbering "4.1.6" = some [4, 1, 6] ∧
      parse_numbering (numToStr [4, 1, 6]) = some [4, 1, 6] :=
  ⟨by decide, c7_roundtrip_amended "4.1.6" [4, 1, 6] (by decide)⟩

/-! ### The heading regex

`extract_hierarchy_checked` is exercised throughout with its default
pattern `^\s*(\d+(?:\.\d+)*)(?:\s+|\.?\s+)?(.*)$`; `headingMatch` below is
`re.match` of that pattern on newline-free span text.  Greedy matching with
backtracking collapses to: skip the maximal leading whitespace run (if the
next character is not a digit, no match); take the maximal
`digits('.'digits)*` token as group 1; then consume a whitespace run, or a
dot followed by a whitespace run, if present; group 2 is the rest. -/

/-- Greedy `(?:\.\d+)*` continuation of the numbering token; a dot is only
consumed when at least one digit follows it.  Fuel `cs.length` suffices. -/
def numTailF : Nat → List Char → List Char × List Char
  | 0, cs => ([], cs)
  | f + 1, cs =>
      match cs with
      | '.' :: rest =>
          let d := rest.takeWhile isDigitC
          if d.isEmpty then ([], cs)
          else
            let t := numTailF f (rest.dropWhile isDigitC)
            ('.' :: (d ++ t.1), t.2)
      | _ => ([], cs)

/-- `re.match` of the default heading pattern: `some (numbering, remainder)`
(the two capture groups) on success. -/
def headingMatch (text : String) : Option (String × String) :=
  let afterWs := text.data.dropWhile isWs
  let d0 := afterWs.takeWhile isDigitC
  if d0.isEmpty then none
  else
    let rest0 := afterWs.dropWhile isDigitC
    let t := numTailF rest0.length rest0
    let num := d0 ++ t.1
    let rest2 :=
      match t.2 with
      | c :: cs' =>
          if isWs c then t.2.dropWhile isWs
          else if c = '.' then
            match cs' with
            | c2 :: _ => if isWs c2 then cs'.dropWhile isWs else t.2
            | [] => t.2
          else t.2
      | [] => t.2
    some (⟨num⟩, ⟨rest2⟩)

/-! ### The span stream (the PyMuPDF page dictionaries, §3/§6 of the spec) -/

/-- Rectangle `(x0, y0, x1, y1)`. -/
structure PdfRect where
  x0 : ℚ
  y0 : ℚ
  x1 : ℚ
  y1 : ℚ

/-- `fitz.Rect.intersects`: the rectangles share a non-empty rectangle
(edge-touching rectangles have an empty intersection). -/
def rectIntersects (a b : PdfRect) : Bool :=
  decide (max a.x0 b.x0 < min a.x1 b.x1) &&
    decide (max a.y0 b.y0 < min a.y1 b.y1)

/-- One styled text run (`span` in the page dictionary). -/
structure PdfSpan where
  text : String
  size : ℚ
  bbox : PdfRect

/-- One line: an ordered list of spans. -/
structure PdfLine where
  spans : List PdfSpan

/-- One block.  `btype` is `block["type"]` (0 = text); `lines = none` models
a block dictionary without a `"lines"` key. -/
structure PdfBlock where
  btype : Nat
  bbox : PdfRect
  lines : Option (List PdfLine)

/-- One page: its height, its blocks, and the `"from"` rectangles of its
hyperlinks (`page.get_links()`). -/
structure PdfPage where
  height : ℚ
  blocks : List PdfBlock
  links : List PdfRect

/-- An output section record (the dict built at source lines 281–287). -/
structure Section where
  title : String
  number : String
  level : Nat
  page : Nat
  content : String
deriving DecidableEq

/-- The configuration of `extract_hierarchy_checked` (all optional
parameters; the heading pattern is fixed to the default, which is the
pattern in every scenario of the spec).
`remove_header_footer_if_contains` is modelled as the semantics of
`re.search(r"|".join(patterns), ·)` — a block-text predicate supplied by the
configuration. -/
structure Config where
  min_font_size : Option ℚ := none
  remove_header_footer_if_contains : Option (String → Bool) := none
  header_height : Option ℚ := none
  footer_height : Option ℚ := none
  start_page : Option Nat := none
  end_page : Option Nat := none
  start_header_number : Option String := none

/-- The mutable scan state of `extract_hierarchy_checked`. -/
structure ExtractState where
  sections : List Section
  current : Option Section
  last_number : Option String
  started : Bool

/-- `min_font_size is None or font_size >= min_font_size`. -/
def fontOk (cfg : Config) (size : ℚ) : Bool :=
  match cfg.min_font_size with
  | none => true
  | some m => decide (m ≤ size)

/-- `any(fitz.Rect(link["from"]).intersects(span_bbox) for link in links)`. -/
def spanIsLink (links : List PdfRect) (bbox : PdfRect) : Bool :=
  links.any fun l => rectIntersects l bbox

/-- Python `"".join(l)`. -/
def pyJoin (l : List String) : String := ⟨(l.map String.data).flatten⟩

/-- Python `sep.join(l)`. -/
def pyJoinSep (sep : String) : List String → String
  | [] => ""
  | [s] => s
  | s :: rest => s ++ sep ++ pyJoinSep sep rest

/-- The words of Python `s.split()` (split on whitespace runs, no empty
words).  Fuel `cs.length` suffices. -/
def wsWordsF : Nat → List Char → List (List Char)
  | 0, _ => []
  | _ + 1, [] => []
  | f + 1, c :: cs =>
      if isWs c then wsWordsF f cs
      else (c :: cs.takeWhile fun d => !isWs d) ::
        wsWordsF f (cs.dropWhile fun d => !isWs d)

/-- Python `s.split()`. -/
def pySplitWs (s : String) : List String :=
  (wsWordsF s.data.length s.data).map fun w => ⟨w⟩

/-- `" ".join(title.split())` — the whitespace normalization applied to a
title when a section is opened. -/
def normTitle (t : String) : String := pyJoinSep " " (pySplitWs t)

/-- `needle` occurs as a contiguous sublist starting at some position. -/
def pyInStrAux (needle : List Char) : List Char → Bool
  | [] => needle.isEmpty
  | c :: cs => needle.isPrefixOf (c :: cs) || pyInStrAux needle cs

/-- Python `a in b` on strings (substring test; `"" in b` is true). -/
def pyInStr (a b : String) : Bool := pyInStrAux a.data b.data

/-- Title-stitching step 1 (source lines 233–241): if fragments follow on
the same line, rebuild the title from `[title] + nonempty following texts`.
Returns the new title and the suffix appended to the working `text` (the
source appends the whole joined part list — including the old title — to
`text`). -/
def stitchParts1 (title : String) (parts : List String) : String × String :=
  if parts.isEmpty then (title, "")
  else (pyJoin parts, pyJoin parts)

def stitchStep1 (title : String) (restTexts : List String) : String × String :=
  if restTexts.isEmpty then (title, "")
  else
    stitchParts1 title
      ((if title = "" then [] else [title]) ++ restTexts.filter fun t => t ≠ "")

/-- Title-stitching step 2 (source lines 243–257): if the title is still
shorter than 2 characters and a following line exists in the block, append
that line's non-empty fragment texts.  Returns the new title and the suffix
appended to the working `text`. -/
def stitchParts2 (title : String) (parts : List String) : String × String :=
  if parts.isEmpty then (title, "")
  else (title ++ pyJoin parts, pyJoin parts)

def stitchStep2 (title : String) (nextTexts : Option (List String)) :
    String × String :=
  if title.length < 2 then
    match nextTexts with
    | some ts => stitchParts2 title (ts.filter fun t => t ≠ "")
    | none => (title, "")
  else (title, "")

/-- The section dict opened at source lines 281–287 / 296–302. -/
def mkSection (title num_str : String) (page_num : Nat) : Section :=
  { title := normTitle title
    number := num_str
    level := (splitDotL num_str.data).length
    page := page_num + 1
    content := "" }

/-- `current_section["content"] += s` when a section is open. -/
def appendContent (st : ExtractState) (s : String) : ExtractState :=
  match st.current with
  | some c => { st with current := some { c with content := c.content ++ s } }
  | none => st

/-- Seal the open section and open a new one — the accept body that the
source duplicates verbatim in its TOC branch (lines 278–288) and its no-TOC
branch (lines 293–303). -/
def acceptHeading (st : ExtractState) (title num_str : String)
    (page_num : Nat) : ExtractState :=
  { sections := st.sections ++ (match st.current with
      | some c => [c]
      | none => [])
    current := some (mkSection title num_str page_num)
    last_number := some num_str
    started := st.started }

/-- The accept-or-fold decision on a heading-matched, link-free,
gate-passed fragment (source lines 276–307): with a TOC, accept iff the
numbering occurs in some TOC title and `is_next_heading` holds; without a
TOC, accept iff `is_next_heading` holds; otherwise fold the fragment text
into the open section. -/
def acceptOrFold (titles : List String) (st : ExtractState)
    (num_str title text : String) (page_num : Nat) : ExtractState :=
  if titles.length > 0 then
    if (titles.any fun item => pyInStr num_str item) &&
        nextHeadingB st.last_number num_str then
      acceptHeading st title num_str page_num
    else
      appendContent st text
  else if nextHeadingB st.last_number num_str then
    acceptHeading st title num_str page_num
  else
    appendContent st text

/-- Processing of one span (source lines 210–311).  `restSpans` are the
spans after it on its line, `nextLine` the next line of the block (if any);
both are read (for title stitching) but not consumed — the loop advances
one span at a time. -/
def processSpan (cfg : Config) (titles : List String) (links : List PdfRect)
    (page_num : Nat) (span : PdfSpan) (restSpans : List PdfSpan)
    (nextLine : Option (List PdfSpan)) (st : ExtractState) : ExtractState :=
  let text := span.text
  if text = "" then st
  else
    match headingMatch text with
    | some (num_str, g2) =>
        if fontOk cfg span.size then
          if spanIsLink links span.bbox then st
          else
            let s1 := stitchStep1 g2 (restSpans.map fun s => s.text)
            let s2 := stitchStep2 s1.1 (nextLine.map fun l =>
              l.map fun s => s.text)
            let text2 := text ++ s1.2 ++ s2.2
            if st.started then
              acceptOrFold titles st num_str s2.1 text2 page_num
            else if cfg.start_header_number = some num_str then
              acceptOrFold titles { st with started := true } num_str s2.1
                text2 page_num
            else st
        else if st.current.isSome && st.started then
          appendContent st text
        else st
    | none =>
        if st.current.isSome && st.started then appendContent st text
        else st

/-- The span loop of one line. -/
def processSpans (cfg : Config) (titles : List String) (links : List PdfRect)
    (page_num : Nat) (nextLine : Option (List PdfSpan)) :
    List PdfSpan → ExtractState → ExtractState
  | [], st => st
  | span :: rest, st =>
      processSpans cfg titles links page_num nextLine rest
        (processSpan cfg titles links page_num span rest nextLine st)

/-- One line: its span loop, then the end-of-line
`current_section["content"] += '\n'` (source lines 312–313). -/
def processLine (cfg : Config) (titles : List String) (links : List PdfRect)
    (page_num : Nat) (l : PdfLine) (nextLine : Option PdfLine)
    (st : ExtractState) : ExtractState :=
  let st := processSpans cfg titles links page_num
    (nextLine.map fun n => n.spans) l.spans st
  match st.current with
  | some c => { st with current := some { c with content := c.content ++ "\n" } }
  | none => st

/-- The line loop of one block; each line sees its successor (for title
stitching). -/
def processLines (cfg : Config) (titles : List String) (links : List PdfRect)
    (page_num : Nat) : List PdfLine → ExtractState → ExtractState
  | [], st => st
  | l :: rest, st =>
      processLines cfg titles links page_num rest
        (processLine cfg titles links page_num l rest.head? st)

/-- `" ".join(span["text"] for line in lines for span in line["spans"])`. -/
def blockText (lines : List PdfLine) : String :=
  pyJoinSep " " ((lines.map fun l => l.spans.map fun s => s.text).flatten)

/-- One block: the type / missing-lines / exclusion-pattern / header-band /
footer-band filters (source lines 185–201), then the line loop. -/
def processBlock (cfg : Config) (titles : List String) (page_height : ℚ)
    (links : List PdfRect) (page_num : Nat) (b : PdfBlock)
    (st : ExtractState) : ExtractState :=
  if b.btype ≠ 0 then st
  else
    match b.lines with
    | none => st
    | some lines =>
        if (match cfg.remove_header_footer_if_contains with
            | some pat => pat (blockText lines)
            | none => false) then st
        else if (match cfg.header_height with
            | some h => decide (b.bbox.y0 < h)
            | none => false) then st
        else if (match cfg.footer_height with
            | some fh => decide (b.bbox.y1 > page_height - fh)
            | none => false) then st
        else processLines cfg titles links page_num lines st

/-- One page: fold its blocks. -/
def processPage (cfg : Config) (titles : List String) (page_num : Nat)
    (p : PdfPage) (st : ExtractState) : ExtractState :=
  p.blocks.foldl
    (fun st b => processBlock cfg titles p.height p.links page_num b st) st

/-- The page loop, carrying the 0-based page number. -/
def processPages (cfg : Config) (titles : List String) :
    Nat → List PdfPage → ExtractState → ExtractState
  | _, [], st => st
  | n, p :: rest, st =>
      processPages cfg titles (n + 1) rest (processPage cfg titles n p st)

/-- `extract_hierarchy_checked(pdf_path, ...)` with its default heading
pattern.  The document is the materialized span stream: its pages and its
TOC entries `(level, title, page)` as `doc.get_toc()` returns them.  The
page slice models `range(page_start, page_end)` with `doc[page_num]`
(faithful whenever the configured range lies inside the document, as in
every scenario here — an out-of-range index would raise in Python). -/
def extract_hierarchy_checked (doc : List PdfPage)
    (toc : List (Nat × String × Nat)) (cfg : Config) : List Section :=
  let titles := toc.map fun e => e.2.1
  let page_start := match cfg.start_page with
    | some sp => sp - 1
    | none => 0
  let page_end := match cfg.end_page with
    | some ep => ep
    | none => doc.length
  let st0 : ExtractState :=
    { sections := []
      current := none
      last_number := none
      started := cfg.start_header_number.isNone }
  let st := processPages cfg titles page_start
    ((doc.drop page_start).take (page_end - page_start)) st0
  match st.current with
  | some c => st.sections ++ [c]
  | none => st.sections

/-! ### The spec's end-to-end scenario (§8) -/

/-- A one-span scenario fragment occupying the vertical band
`[y0, y1]`. -/
def scenarioSpan (t : String) (sz y0 y1 : ℚ) : PdfSpan :=
  { text := t, size := sz, bbox := ⟨72, y0, 300, y1⟩ }

/-- A one-line, one-span text block for the scenario. -/
def scenarioBlock (t : String) (sz y0 y1 : ℚ) : PdfBlock :=
  { btype := 0, bbox := ⟨72, y0, 300, y1⟩
    lines := some [⟨[scenarioSpan t sz y0 y1]⟩] }

/-- The five-fragment document of the spec's end-to-end scenario. -/
def docC2 : List PdfPage :=
  [⟨792, [scenarioBlock "1 Introduction" 14 100 112,
      scenarioBlock "Intro body text." 10 120 132,
      scenarioBlock "1.1 Background" 12 140 152,
      scenarioBlock "More body." 10 160 172], []⟩,
   ⟨792, [scenarioBlock "2 Next" 14 100 112], []⟩]

/-- All-default configuration (no TOC hint is a separate argument; no
minimum font size, no filters, no page range, no start number). -/
def cfg0 : Config := {}

/-- C2 counterexample: on the five-fragment scenario the flat output is
*not* the three sections claimed — the end-of-line newline rule also fires
on the heading's own line (the section just opened is the open section), so
every content string additionally starts with `"\n"` and the last section's
content is `"\n"` rather than `""`. -/
theorem c2_scenario_counterexample :
    extract_hierarchy_checked docC2 [] cfg0 ≠
      [⟨"Introduction", "1", 1, 1, "Intro body text.\n"⟩,
       ⟨"Background", "1.1", 2, 1, "More body.\n"⟩,
       ⟨"Next", "2", 1, 2, ""⟩] := by
  decide

/-- C2 (amended): the scenario yields exactly the three claimed sections —
same numbers, titles, levels and pages — but each content also carries the
newline appended at the end of the heading's own processed line: contents
are `"\nIntro body text.\n"`, `"\nMore body.\n"` and `"\n"`. -/
theorem c2_scenario_amended :
    extract_hierarchy_checked docC2 [] cfg0 =
      [⟨"Introduction", "1", 1, 1, "\nIntro body text.\n"⟩,
       ⟨"Background", "1.1", 2, 1, "\nMore body.\n"⟩,
       ⟨"Next", "2", 1, 2, "\n"⟩] := by
  decide

/-! ### Hyperlink suppression (C3) -/

/-- The hyperlink-suppression scenario: an open section `1 Intro`, then a
fragment `1.1 Background` whose bounding box intersects a hyperlink region
of the page. -/
def docC3 : List PdfPage :=
  [⟨792, [scenarioBlock "1 Intro" 14 100 112,
      scenarioBlock "1.1 Background" 12 140 152],
    [⟨70, 138, 310, 154⟩]⟩]

/-- C3 counterexample: the hyperlinked heading fragment is *not* appended to
the open section's content — the output section's content is just the two
end-of-line newlines and contains no occurrence of `"1.1 Background"`. -/
theorem c3_link_counterexample :
    extract_hierarchy_checked docC3 [] cfg0 =
        [⟨"Intro", "1", 1, 1, "\n\n"⟩] ∧
    ∀ s ∈ extract_hierarchy_checked docC3 [] cfg0,
      pyInStr "1.1 Background" s.content = false := by
  refine ⟨by decide, by decide⟩

theorem headingMatch_empty : headingMatch "" = none := rfl

/-- C3 (amended): a heading-matched fragment whose bounding box intersects a
hyperlink region is never accepted as a section boundary — the scan skips it
and leaves the state completely unchanged, so its text is dropped outright
(not folded into the open section's content). -/
theorem c3_link_suppression (cfg : Config) (titles : List String)
    (links : List PdfRect) (page_num : Nat) (span : PdfSpan)
    (restSpans : List PdfSpan) (nextLine : Option (List PdfSpan))
    (st : ExtractState) (num_str g2 : String)
    (hm : headingMatch span.text = some (num_str, g2))
    (hf : fontOk cfg span.size = true)
    (hl : spanIsLink links span.bbox = true) :
    processSpan cfg titles links page_num span restSpans nextLine st = st := by
  have hne : span.text ≠ "" := by
    intro h
    rw [h, headingMatch_empty] at hm
    cases hm
  simp only [processSpan, if_neg hne, hm, hf, hl, if_true, ite_true]

/-- Witness for `c3_link_suppression`: the hyperlinked `1.1 Background`
fragment leaves a state with one open section untouched. -/
theorem c3_link_witness :
    processSpan cfg0 [] [⟨70, 138, 310, 154⟩] 0
        (scenarioSpan "1.1 Background" 12 140 152) [] none
        ⟨[], some (mkSection "Intro" "1" 0), some "1", true⟩ =
      ⟨[], some (mkSection "Intro" "1" 0), some "1", true⟩ :=
  c3_link_suppression cfg0 [] [⟨70, 138, 310, 154⟩] 0
    (scenarioSpan "1.1 Background" 12 140 152) [] none
    ⟨[], some (mkSection "Intro" "1" 0), some "1", true⟩ "1.1" "Background"
    (by decide) (by decide) (by decide)

/-! ### The start-heading gate (C9) -/

theorem appendContent_started (st : ExtractState) (s : String) :
    (appendContent st s).started = st.started := by
  unfold appendContent
  cases st.current <;> rfl

theorem acceptOrFold_started (titles : List String) (st : ExtractState)
    (num_str title text : String) (page_num : Nat) :
    (acceptOrFold titles st num_str title text page_num).started
      = st.started := by
  unfold acceptOrFold acceptHeading
  split
  · split
    · rfl
    · exact appendContent_started st text
  · split
    · rfl
    · exact appendContent_started st text

/-- The gate test that flips `started` (source lines 268–273): the span
heading-matches, passes the font gate, is not a hyperlink, and its
numbering equals the configured start number. -/
def gateCondB (cfg : Config) (links : List PdfRect) (span : PdfSpan) : Bool :=
  match headingMatch span.text with
  | some (num_str, _) =>
      fontOk cfg span.size && !spanIsLink links span.bbox &&
        decide (cfg.start_header_number = some num_str)
  | none => false

/-- The scenario configuration with `start_header_number = "1.1"`. -/
def cfgStart11 : Config := { start_header_number := some "1.1" }

/-- C9: while the scan is SUPPRESSED (`started = false`), processing a span
flips `started` exactly when the span passes the gate test (heading match,
font gate, no hyperlink, numbering equal to the configured start number),
and any span failing the gate leaves the state *completely* unchanged — so
no section is opened or emitted before the gate fragment arrives.  On the
spec's scenario with `start_header_number = "1.1"`, `1 Introduction` and its
body are absent and extraction begins at `1.1 Background`. -/
theorem c9_start_gate :
    (∀ (cfg : Config) (titles : List String) (links : List PdfRect)
      (page_num : Nat) (span : PdfSpan) (restSpans : List PdfSpan)
      (nextLine : Option (List PdfSpan)) (st : ExtractState),
      st.started = false →
        ((processSpan cfg titles links page_num span restSpans nextLine
            st).started = gateCondB cfg links span) ∧
        (gateCondB cfg links span = false →
          processSpan cfg titles links page_num span restSpans nextLine st
            = st)) ∧
    extract_hierarchy_checked docC2 [] cfgStart11 =
      [⟨"Background", "1.1", 2, 1, "\nMore body.\n"⟩,
       ⟨"Next", "2", 1, 2, "\n"⟩] := by
  constructor
  · intro cfg titles links page_num span restSpans nextLine st hst
    by_cases hne : span.text = ""
    · constructor
      · simp [processSpan, gateCondB, hne, headingMatch_empty, hst]
      · intro _
        simp [processSpan, hne]
    · cases hm : headingMatch span.text with
      | none =>
          constructor
          · simp [processSpan, gateCondB, hne, hm, hst]
          · intro _
            simp [processSpan, hne, hm, hst]
      | some pr =>
          obtain ⟨num_str, g2⟩ := pr
          cases hf : fontOk cfg span.size with
          | false =>
              constructor
              · simp [processSpan, gateCondB, hne, hm, hf, hst]
              · intro _
                simp [processSpan, hne, hm, hf, hst]
          | true =>
              cases hl : spanIsLink links span.bbox with
              | true =>
                  constructor
                  · simp [processSpan, gateCondB, hne, hm, hf, hl, hst]
                  · intro _
                    simp [processSpan, hne, hm, hf, hl]
              | false =>
                  by_cases hq : cfg.start_header_number = some num_str
                  · constructor
                    · simp [processSpan, gateCondB, hne, hm, hf, hl, hst, hq,
                        acceptOrFold_started]
                    · intro h
                      rw [gateCondB, hm, hf, hl] at h
                      simp [hq] at h
                  · constructor
                    · simp [processSpan, gateCondB, hne, hm, hf, hl, hst, hq]
                    · intro _
                      simp [processSpan, hne, hm, hf, hl, hst, hq]
  · decide

/-- Witness for `c9_start_gate`: in the SUPPRESSED state the heading
`1 Introduction` (numbering `"1"`, different from the configured `"1.1"`)
leaves the empty state unchanged. -/
theorem c9_start_gate_witness :
    processSpan cfgStart11 [] [] 0 (scenarioSpan "1 Introduction" 14 100 112)
        [] none ⟨[], none, none, false⟩ = ⟨[], none, none, false⟩ :=
  (c9_start_gate.1 cfgStart11 [] [] 0
    (scenarioSpan "1 Introduction" 14 100 112) [] none
    ⟨[], none, none, false⟩ rfl).2 (by decide)

/-! ### TOC-gated acceptance (C4) -/

theorem string_append_ne_right : ∀ {a b : String}, b ≠ "" → a ++ b ≠ "" := by
  intro a b hb h
  apply hb
  cases a with | mk la =>
  cases b with | mk lb =>
  have h2 : la ++ lb = ([] : List Char) := congrArg String.data h
  have h3 : lb = [] := (List.append_eq_nil.mp h2).2
  rw [h3]

def OpensAt (st2 : ExtractState) (num_str : String) (page_num : Nat) : Prop :=
  st2.last_number = some num_str ∧
  ∃ c, st2.current = some c ∧ c.number = num_str ∧ c.page = page_num + 1 ∧
    c.content = ""

theorem acceptOrFold_opens_iff (titles : List String) (st : ExtractState)
    (num_str title text : String) (page_num : Nat) (b : Bool)
    (hb : is_next_heading st.last_number num_str = some b)
    (htext : text ≠ "") :
    OpensAt (acceptOrFold titles st num_str title text page_num) num_str
        page_num ↔
      ((titles = [] ∧ b = true) ∨
       (titles ≠ [] ∧ (∃ t ∈ titles, pyInStr num_str t = true) ∧ b = true)) := by
  have hnb : nextHeadingB st.last_number num_str = b := by
    rw [nextHeadingB, hb]
    rfl
  have hopen : OpensAt (acceptHeading st title num_str page_num) num_str page_num := by
    exact ⟨rfl, mkSection title num_str page_num, rfl, rfl, rfl, rfl⟩
  have hfold : ¬ OpensAt (appendContent st text) num_str page_num := by
    rintro ⟨hlast, c, hc, hnum, hpage, hcontent⟩
    cases hcur : st.current with
    | none => simp [appendContent, hcur] at hc
    | some c0 =>
        simp [appendContent, hcur] at hc
        have hcc : c.content = c0.content ++ text := by rw [← hc]
        rw [hcontent] at hcc
        exact string_append_ne_right htext hcc.symm
  unfold acceptOrFold
  by_cases ht : titles.length > 0
  · rw [if_pos ht]
    have hte : titles ≠ [] := by
      intro h
      rw [h] at ht
      simp at ht
    by_cases hc : ((titles.any fun item => pyInStr num_str item) &&
        nextHeadingB st.last_number num_str) = true
    · rw [if_pos hc]
      simp only [Bool.and_eq_true, List.any_eq_true] at hc
      constructor
      · intro _
        exact Or.inr ⟨hte, hc.1, by rw [← hnb]; exact hc.2⟩
      · intro _
        exact hopen
    · rw [if_neg hc]
      constructor
      · intro h
        exact absurd h hfold
      · rintro (⟨h1, _⟩ | ⟨_, h2, h3⟩)
        · exact absurd h1 hte
        · exact (hc (by
            simp only [Bool.and_eq_true, List.any_eq_true]
            exact ⟨h2, by rw [hnb]; exact h3⟩)).elim
  · rw [if_neg ht]
    have hte : titles = [] := by
      cases titles with
      | nil => rfl
      | cons a l => exact absurd (by simp) ht
    cases hbv : b with
    | true =>
        rw [if_pos (by rw [hnb, hbv])]
        constructor
        · intro _
          exact Or.inl ⟨hte, rfl⟩
        · intro _
          exact hopen
    | false =>
        rw [if_neg (by rw [hnb, hbv]; simp)]
        constructor
        · intro h
          exact absurd h hfold
        · rintro (⟨_, h1⟩ | ⟨h2, _, _⟩)
          · simp at h1
          · exact absurd hte h2

theorem string_append_ne_left : ∀ {a b : String}, a ≠ "" → a ++ b ≠ "" := by
  intro a b ha h
  apply ha
  cases a with | mk la =>
  cases b with | mk lb =>
  have h2 : la ++ lb = ([] : List Char) := congrArg String.data h
  have h3 : la = [] := (List.append_eq_nil.mp h2).1
  rw [h3]

/-- C4: a heading-matched, font-passing, link-free fragment processed while
ACTIVE opens a new section boundary (`OpensAt`) exactly when — with a TOC
hint — its numbering occurs as a substring of some TOC title *and*
`is_next_heading` holds against the last accepted numbering, and — without a
TOC hint — exactly when `is_next_heading` alone holds. -/
theorem c4_toc_acceptance (cfg : Config) (titles : List String)
    (links : List PdfRect) (page_num : Nat) (span : PdfSpan)
    (restSpans : List PdfSpan) (nextLine : Option (List PdfSpan))
    (st : ExtractState) (num_str g2 : String) (b : Bool)
    (hm : headingMatch span.text = some (num_str, g2))
    (hf : fontOk cfg span.size = true)
    (hl : spanIsLink links span.bbox = false)
    (hst : st.started = true)
    (hb : is_next_heading st.last_number num_str = some b) :
    OpensAt (processSpan cfg titles links page_num span restSpans nextLine st)
        num_str page_num ↔
      ((titles = [] ∧ b = true) ∨
       (titles ≠ [] ∧ (∃ t ∈ titles, pyInStr num_str t = true) ∧
        b = true)) := by
  have hne : span.text ≠ "" := by
    intro h
    rw [h, headingMatch_empty] at hm
    cases hm
  have hred : processSpan cfg titles links page_num span restSpans nextLine st
      = acceptOrFold titles st num_str
        (stitchStep2 (stitchStep1 g2 (restSpans.map fun s => s.text)).1
          (nextLine.map fun l => l.map fun s => s.text)).1
        (span.text ++ (stitchStep1 g2 (restSpans.map fun s => s.text)).2 ++
          (stitchStep2 (stitchStep1 g2 (restSpans.map fun s => s.text)).1
            (nextLine.map fun l => l.map fun s => s.text)).2) page_num := by
    simp [processSpan, hne, hm, hf, hl, hst]
  rw [hred]
  exact acceptOrFold_opens_iff titles st num_str _ _ page_num b hb
    (string_append_ne_left (string_append_ne_left hne))

/-- Witness for `c4_toc_acceptance`: with the TOC hint `["1 Intro"]`, the
fragment `1 Intro` (numbering `"1"`, contained in the TOC title, first
heading ever) opens a section. -/
theorem c4_toc_acceptance_witness :
    OpensAt (processSpan cfg0 ["1 Intro"] [] 0
        (scenarioSpan "1 Intro" 14 100 112) [] none
        ⟨[], none, none, true⟩) "1" 0 :=
  (c4_toc_acceptance cfg0 ["1 Intro"] [] 0
      (scenarioSpan "1 Intro" 14 100 112) [] none
      ⟨[], none, none, true⟩ "1" "Intro" true (by decide) rfl rfl rfl rfl).mpr
    (Or.inr ⟨by decide, ⟨"1 Intro", by decide, by decide⟩, rfl⟩)

/-! ### Title stitching and normalization (C5) -/

theorem string_data_append (a b : String) : (a ++ b).data = a.data ++ b.data :=
  rfl

theorem pyJoin_nil : pyJoin [] = "" := rfl

theorem pyJoin_cons (s : String) (l : List String) :
    pyJoin (s :: l) = s ++ pyJoin l := rfl

theorem pyJoin_filter_ne : ∀ l : List String,
    pyJoin (l.filter fun t => t ≠ "") = pyJoin l := by
  intro l
  induction l with
  | nil => rfl
  | cons s l ih =>
      by_cases hs : s = ""
      · subst hs
        rw [show (("" : String) :: l).filter (fun t => t ≠ "")
            = l.filter (fun t => t ≠ "") from by simp, ih, pyJoin_cons]
        simp
      · rw [show (s :: l).filter (fun t => t ≠ "")
            = s :: l.filter (fun t => t ≠ "") from by simp [hs],
          pyJoin_cons, ih, pyJoin_cons]

theorem stitchParts1_filter (title : String) (rest : List String) :
    (stitchParts1 title
      ((if title = "" then [] else [title]) ++ rest.filter fun t => t ≠ "")).1
      = title ++ pyJoin rest := by
  by_cases hg : title = ""
  · subst hg
    rw [if_pos rfl, List.nil_append]
    unfold stitchParts1
    by_cases hp : (rest.filter fun t => t ≠ "").isEmpty
    · rw [if_pos hp]
      have h0 : pyJoin rest = "" := by
        rw [← pyJoin_filter_ne, List.isEmpty_iff.mp hp]
        rfl
      rw [h0]
      rfl
    · rw [if_neg hp]
      show pyJoin (rest.filter fun t => t ≠ "") = "" ++ pyJoin rest
      rw [pyJoin_filter_ne]
      simp
  · rw [if_neg hg, List.singleton_append]
    unfold stitchParts1
    rw [if_neg (by simp)]
    show pyJoin (title :: rest.filter fun t => t ≠ "") = title ++ pyJoin rest
    rw [pyJoin_cons, pyJoin_filter_ne]

theorem stitchStep1_fst (g2 : String) (rest : List String) :
    (stitchStep1 g2 rest).1 = g2 ++ pyJoin rest := by
  unfold stitchStep1
  by_cases hr : rest.isEmpty
  · rw [if_pos hr, List.isEmpty_iff.mp hr]
    show g2 = g2 ++ pyJoin []
    rw [pyJoin_nil]
    simp
  · rw [if_neg hr]
    exact stitchParts1_filter g2 rest

theorem stitchParts2_filter (title : String) (ts : List String) :
    (stitchParts2 title (ts.filter fun t => t ≠ "")).1
      = title ++ pyJoin ts := by
  unfold stitchParts2
  by_cases hp : (ts.filter fun t => t ≠ "").isEmpty
  · rw [if_pos hp]
    have h0 : pyJoin ts = "" := by
      rw [← pyJoin_filter_ne, List.isEmpty_iff.mp hp]
      rfl
    rw [h0]
    show title = title ++ ""
    simp
  · rw [if_neg hp]
    show title ++ pyJoin (ts.filter fun t => t ≠ "") = title ++ pyJoin ts
    rw [pyJoin_filter_ne]

theorem stitchStep2_fst (t1 : String) (nl : Option (List String)) :
    (stitchStep2 t1 nl).1 =
      if t1.length < 2 then
        (match nl with
         | some ts => t1 ++ pyJoin ts
         | none => t1)
      else t1 := by
  unfold stitchStep2
  by_cases hlen : t1.length < 2
  · rw [if_pos hlen, if_pos hlen]
    cases nl with
    | none => rfl
    | some ts => exact stitchParts2_filter t1 ts
  · rw [if_neg hlen, if_neg hlen]

theorem length_dropWhile_le_self (p : Char → Bool) :
    ∀ cs : List Char, (cs.dropWhile p).length ≤ cs.length := by
  intro cs
  induction cs with
  | nil => simp
  | cons c cs ih =>
      by_cases h : p c
      · rw [List.dropWhile_cons, if_pos h]
        exact le_trans ih (by simp)
      · rw [List.dropWhile_cons, if_neg h]

theorem wsWordsF_sound : ∀ f (cs : List Char), cs.length ≤ f →
    ∀ w ∈ wsWordsF f cs, w ≠ [] ∧ ∀ c ∈ w, isWs c = false := by
  intro f
  induction f with
  | zero =>
      intro cs hcs w hw
      simp [wsWordsF] at hw
  | succ f ih =>
      intro cs hcs w hw
      cases cs with
      | nil => simp [wsWordsF] at hw
      | cons c cs =>
          have hcs' : cs.length ≤ f := by
            simp [List.length_cons] at hcs
            omega
          by_cases hc : isWs c
          · rw [show wsWordsF (f + 1) (c :: cs) = wsWordsF f cs from by
              simp [wsWordsF, hc]] at hw
            exact ih cs hcs' w hw
          · rw [show wsWordsF (f + 1) (c :: cs)
                = (c :: cs.takeWhile fun d => !isWs d) ::
                  wsWordsF f (cs.dropWhile fun d => !isWs d) from by
              simp [wsWordsF, hc]] at hw
            rcases List.mem_cons.mp hw with h | h
            · subst h
              refine ⟨by simp, ?_⟩
              intro x hx
              rcases List.mem_cons.mp hx with h1 | h1
              · subst h1
                simpa using hc
              · have := List.mem_takeWhile_imp h1
                simpa using this
            · exact ih _ (le_trans (length_dropWhile_le_self _ cs) hcs') w h

theorem filter_takeWhile_dropWhile (p : Char → Bool) :
    ∀ cs : List Char,
      cs.filter p = cs.takeWhile p ++ (cs.dropWhile p).filter p := by
  intro cs
  induction cs with
  | nil => rfl
  | cons c cs ih =>
      by_cases h : p c
      · simp [List.filter_cons, List.takeWhile_cons, List.dropWhile_cons, h,
          ← ih]
      · simp [List.filter_cons, List.takeWhile_cons, List.dropWhile_cons, h]

theorem wsWordsF_flatten : ∀ f (cs : List Char), cs.length ≤ f →
    (wsWordsF f cs).flatten = cs.filter fun c => !isWs c := by
  intro f
  induction f with
  | zero =>
      intro cs hcs
      have h0 : cs = [] := List.eq_nil_of_length_eq_zero (by omega)
      subst h0
      rfl
  | succ f ih =>
      intro cs hcs
      cases cs with
      | nil => rfl
      | cons c cs =>
          have hcs' : cs.length ≤ f := by
            simp [List.length_cons] at hcs
            omega
          by_cases hc : isWs c
          · rw [show wsWordsF (f + 1) (c :: cs) = wsWordsF f cs from by
              simp [wsWordsF, hc], ih cs hcs', List.filter_cons]
            simp [hc]
          · rw [show wsWordsF (f + 1) (c :: cs)
                = (c :: cs.takeWhile fun d => !isWs d) ::
                  wsWordsF f (cs.dropWhile fun d => !isWs d) from by
              simp [wsWordsF, hc],
              List.flatten_cons,
              ih _ (le_trans (length_dropWhile_le_self _ cs) hcs'),
              List.filter_cons]
            simp only [hc, Bool.not_false, if_true, List.cons_append]
            rw [← filter_takeWhile_dropWhile]

theorem chain'_of_all_nonws {l : List Char} (h : ∀ x ∈ l, isWs x = false) :
    List.Chain' (fun a b => isWs a = false ∨ isWs b = false) l := by
  induction l with
  | nil => exact List.chain'_nil
  | cons c cs ih =>
      rw [List.chain'_cons']
      exact ⟨fun y _ => Or.inl (h c (by simp)),
        ih fun x hx => h x (by simp [hx])⟩

theorem pyJoinSep_space_ne_nil : ∀ ws : List String, ws ≠ [] →
    (∀ w ∈ ws, w.data ≠ []) → (pyJoinSep " " ws).data ≠ [] := by
  intro ws hne h
  cases ws with
  | nil => exact absurd rfl hne
  | cons s rest =>
      cases rest with
      | nil => exact h s (by simp)
      | cons s2 rest2 =>
          show (s ++ " " ++ pyJoinSep " " (s2 :: rest2)).data ≠ []
          rw [string_data_append, string_data_append]
          intro hx
          have := (List.append_eq_nil.mp hx).1
          have h2 := (List.append_eq_nil.mp this).2
          exact absurd h2 (by simp [show (" " : String).data = [' '] from rfl])

theorem pyJoinSep_space_filter : ∀ ws : List String,
    (∀ w ∈ ws, ∀ c ∈ w.data, isWs c = false) →
    (pyJoinSep " " ws).data.filter (fun c => !isWs c)
      = (ws.map String.data).flatten := by
  intro ws
  induction ws with
  | nil => intro _; rfl
  | cons s rest ih =>
      intro h
      cases rest with
      | nil =>
          show s.data.filter (fun c => !isWs c) = ([s.data]).flatten
          rw [List.filter_eq_self.mpr (by
            intro c hc
            simp [h s (by simp) c hc])]
          simp
      | cons s2 rest2 =>
          show ((s ++ " " ++ pyJoinSep " " (s2 :: rest2)).data.filter
            fun c => !isWs c) = _
          rw [string_data_append, string_data_append, List.filter_append,
            List.filter_append,
            List.filter_eq_self.mpr (by
              intro c hc
              simp [h s (by simp) c hc]),
            show ((" " : String).data.filter fun c => !isWs c) = [] from rfl,
            ih fun w hw c hc => h w (by simp [hw]) c hc]
          simp

theorem pyJoinSep_space_shape : ∀ ws : List String,
    (∀ w ∈ ws, w.data ≠ [] ∧ ∀ c ∈ w.data, isWs c = false) →
    (∀ c, (pyJoinSep " " ws).data.head? = some c → isWs c = false) ∧
    (∀ c, (pyJoinSep " " ws).data.getLast? = some c → isWs c = false) ∧
    List.Chain' (fun a b => isWs a = false ∨ isWs b = false)
      (pyJoinSep " " ws).data ∧
    (∀ c ∈ (pyJoinSep " " ws).data, isWs c = true → c = ' ') := by
  intro ws
  induction ws with
  | nil =>
      intro _
      refine ⟨?_, ?_, List.chain'_nil, ?_⟩ <;>
        · intro c hc
          rw [show (pyJoinSep " " []).data = ([] : List Char) from rfl] at hc
          simp at hc
  | cons s rest ih =>
      intro h
      have hs := h s (by simp)
      cases rest with
      | nil =>
          refine ⟨?_, ?_, chain'_of_all_nonws hs.2, ?_⟩
          · intro c hc
            exact hs.2 c (List.mem_of_mem_head? hc)
          · intro c hc
            exact hs.2 c (List.mem_of_mem_getLast? hc)
          · intro c hc hw
            exact absurd hw (by simp [hs.2 c hc])
      | cons s2 rest2 =>
          have hrest : ∀ w ∈ s2 :: rest2, w.data ≠ [] ∧
              ∀ c ∈ w.data, isWs c = false :=
            fun w hw => h w (by simp [hw])
          obtain ⟨ihh, ihl, ihc, ihsp⟩ := ih hrest
          have hJne : (pyJoinSep " " (s2 :: rest2)).data ≠ [] :=
            pyJoinSep_space_ne_nil _ (by simp) fun w hw => (hrest w hw).1
          have hdata : (pyJoinSep " " (s :: s2 :: rest2)).data
              = s.data ++ (' ' :: (pyJoinSep " " (s2 :: rest2)).data) := by
            show (s ++ " " ++ pyJoinSep " " (s2 :: rest2)).data = _
            rw [string_data_append, string_data_append]
            simp [show (" " : String).data = [' '] from rfl]
          rw [hdata]
          obtain ⟨d, ds, hd⟩ := List.exists_cons_of_ne_nil hs.1
          refine ⟨?_, ?_, ?_, ?_⟩
          · intro c hc
            rw [hd] at hc
            simp at hc
            subst hc
            exact hs.2 d (by rw [hd]; simp)
          · intro c hc
            rw [List.getLast?_append_of_ne_nil _ (by simp)] at hc
            obtain ⟨j, js, hj⟩ := List.exists_cons_of_ne_nil hJne
            rw [hj, List.getLast?_cons_cons, ← hj] at hc
            exact ihl c hc
          · rw [List.chain'_append]
            refine ⟨chain'_of_all_nonws hs.2, ?_, ?_⟩
            · rw [List.chain'_cons']
              refine ⟨?_, ihc⟩
              intro y hy
              exact Or.inr (ihh y hy)
            · intro x hx y hy
              simp at hy
              subst hy
              exact Or.inl (hs.2 x (List.mem_of_mem_getLast? hx))
          · intro c hc hw
            rcases List.mem_append.mp hc with h1 | h1
            · exact absurd hw (by simp [hs.2 c h1])
            · rcases List.mem_cons.mp h1 with h2 | h2
              · exact h2
              · exact ihsp c h2 hw

/-- C5: for a matched heading fragment, step 1 concatenates *all* same-line
following fragment texts into the title regardless of the remainder's
length (`(stitchStep1 g2 rest).1 = g2 ++ join rest`); step 2 appends the
whole next line's texts exactly when the title is still shorter than 2
characters and such a line exists; and the final `normTitle` keeps the
non-whitespace characters unchanged while producing a title with no
leading/trailing whitespace and every whitespace run collapsed to a single
`' '` (no two adjacent whitespace characters, every whitespace character a
space). -/
theorem c5_title_stitch :
    (∀ (g2 : String) (rest : List String),
      (stitchStep1 g2 rest).1 = g2 ++ pyJoin rest) ∧
    (∀ (t1 : String) (nl : Option (List String)),
      (stitchStep2 t1 nl).1 =
        if t1.length < 2 then
          (match nl with
           | some ts => t1 ++ pyJoin ts
           | none => t1)
        else t1) ∧
    (∀ t : String,
      (normTitle t).data.filter (fun c => !isWs c)
        = t.data.filter (fun c => !isWs c) ∧
      (∀ c, (normTitle t).data.head? = some c → isWs c = false) ∧
      (∀ c, (normTitle t).data.getLast? = some c → isWs c = false) ∧
      List.Chain' (fun a b => isWs a = false ∨ isWs b = false)
        (normTitle t).data ∧
      (∀ c ∈ (normTitle t).data, isWs c = true → c = ' ')) := by
  refine ⟨stitchStep1_fst, stitchStep2_fst, ?_⟩
  intro t
  have hw : ∀ w ∈ pySplitWs t, w.data ≠ [] ∧ ∀ c ∈ w.data, isWs c = false := by
    intro w hwm
    obtain ⟨w0, hw0, rfl⟩ := List.mem_map.mp hwm
    exact wsWordsF_sound t.data.length t.data le_rfl w0 hw0
  obtain ⟨hh, hl, hc, hsp⟩ := pyJoinSep_space_shape (pySplitWs t) hw
  refine ⟨?_, hh, hl, hc, hsp⟩
  rw [show normTitle t = pyJoinSep " " (pySplitWs t) from rfl,
    pyJoinSep_space_filter (pySplitWs t) fun w hw2 c hc2 => (hw w hw2).2 c hc2]
  have hmap : (pySplitWs t).map String.data
      = wsWordsF t.data.length t.data := by
    rw [pySplitWs, List.map_map]
    exact List.map_id _
  rw [hmap]
  exact wsWordsF_flatten t.data.length t.data le_rfl

/-- Witness for `c5_title_stitch` at the title `"  Heading   Two "` and at
a concrete stitching step. -/
theorem c5_title_stitch_witness :
    isWs 'H' = false ∧
      (stitchStep1 "T" ["itle"]).1 = "T" ++ pyJoin ["itle"] :=
  ⟨(c5_title_stitch.2.2 "  Heading   Two ").2.1 'H' (by decide),
   c5_title_stitch.1 "T" ["itle"]⟩

/-! ### The Hierarchy Builder (C6)

`nest_sections_by_hierarchy` builds the tree by mutating Python dicts in
place through aliases: the stack holds the same node objects that already
sit in their parent's `children` list (or in `root`).  The functional
embedding keeps each still-open node as a `(section, children-so-far)`
stack entry and attaches it to the entry below it — its parent, which is
fixed for the node's whole lifetime on the stack — at the moment it is
popped.  This yields the same trees in the same order: a node is always
popped (hence attached) before any later sibling is pushed, so a parent's
children accumulate in exactly Python's append order, and a root is
appended to the root list before any later root is pushed. -/

/-- A hierarchy node: a section dict plus its `children` list. -/
inductive SNode where
  | mk : Section → List SNode → SNode

def SNode.sec : SNode → Section
  | .mk s _ => s

def SNode.children : SNode → List SNode
  | .mk _ cs => cs

/-- Pre-order traversal of a forest (node, then its subtree, then its
right siblings). -/
def flattenF : List SNode → List Section
  | [] => []
  | .mk s cs :: ns => s :: (flattenF cs ++ flattenF ns)

/-- The nesting invariant of C6: every node's children all have level
strictly greater than the node's level, hereditarily. -/
inductive LevelsOk : SNode → Prop where
  | mk : ∀ (s : Section) (cs : List SNode),
      (∀ c ∈ cs, s.level < (SNode.sec c).level) →
      (∀ c ∈ cs, LevelsOk c) → LevelsOk (SNode.mk s cs)

/-- `while stack and stack[-1]['level'] >= lvl: stack.pop()` — with the
deferred attachment of each popped node to the entry below it (its parent),
or to the root list when the stack empties.  Fuel `stack.length`
suffices. -/
def popGEF : Nat → Nat → List (Section × List SNode) → List SNode →
    List (Section × List SNode) × List SNode
  | 0, _, stack, root => (stack, root)
  | _ + 1, _, [], root => ([], root)
  | f + 1, lvl, (s, cs) :: rest, root =>
      if lvl ≤ s.level then
        match rest with
        | (s2, cs2) :: r2 =>
            popGEF f lvl ((s2, cs2 ++ [SNode.mk s cs]) :: r2) root
        | [] => popGEF f lvl [] (root ++ [SNode.mk s cs])
      else ((s, cs) :: rest, root)

/-- Process one section: wrap it as a fresh childless node, pop the stack
down to its parent, push it. -/
def nestStep (acc : List (Section × List SNode) × List SNode)
    (sec : Section) : List (Section × List SNode) × List SNode :=
  ((sec, []) :: (popGEF acc.1.length sec.level acc.1 acc.2).1,
    (popGEF acc.1.length sec.level acc.1 acc.2).2)

/-- `nest_sections_by_hierarchy(sections)`: the linear pass over the flat
list, then the final unwind of the stack (level 0 is `≤` every level, so
the unwind pops everything, closing all still-open nodes). -/
def nest_sections_by_hierarchy (sections : List Section) : List SNode :=
  (popGEF (sections.foldl nestStep ([], [])).1.length 0
    (sections.foldl nestStep ([], [])).1
    (sections.foldl nestStep ([], [])).2).2

theorem flattenF_append : ∀ a b : List SNode,
    flattenF (a ++ b) = flattenF a ++ flattenF b := by
  intro a
  induction a with
  | nil =>
      intro b
      simp [flattenF]
  | cons n a ih =>
      intro b
      cases n with
      | mk s cs =>
          simp only [List.cons_append, flattenF, ih, List.append_assoc]

/-- The sections of one still-open stack entry, in pre-order. -/
def entFlat (e : Section × List SNode) : List Section :=
  e.1 :: flattenF e.2

/-- All sections currently on the stack, bottom entry first. -/
def stackFlat (stack : List (Section × List SNode)) : List Section :=
  (stack.reverse.map entFlat).flatten

theorem stackFlat_nil : stackFlat [] = [] := rfl

theorem stackFlat_cons (e : Section × List SNode)
    (stack : List (Section × List SNode)) :
    stackFlat (e :: stack) = stackFlat stack ++ entFlat e := by
  simp [stackFlat, List.reverse_cons]

/-- Stack invariant: levels strictly increase from bottom to top, and every
already-attached child is a finished, well-levelled subtree. -/
def StackInv (stack : List (Section × List SNode)) : Prop :=
  List.Chain' (fun a b => b.1.level < a.1.level) stack ∧
  ∀ e ∈ stack, ∀ c ∈ e.2, e.1.level < (SNode.sec c).level ∧ LevelsOk c

def RootInv (root : List SNode) : Prop := ∀ n ∈ root, LevelsOk n

theorem popGEF_inv : ∀ (f lvl : Nat) (stack : List (Section × List SNode))
    (root : List SNode), stack.length ≤ f → StackInv stack → RootInv root →
    StackInv (popGEF f lvl stack root).1 ∧
    RootInv (popGEF f lvl stack root).2 ∧
    (flattenF (popGEF f lvl stack root).2
        ++ stackFlat (popGEF f lvl stack root).1
      = flattenF root ++ stackFlat stack) ∧
    ((popGEF f lvl stack root).1 = [] ∨
      ∃ e rest, (popGEF f lvl stack root).1 = e :: rest ∧
        e.1.level < lvl) := by
  intro f
  induction f with
  | zero =>
      intro lvl stack root hlen hs hr
      have h0 : stack = [] := List.eq_nil_of_length_eq_zero (by omega)
      subst h0
      exact ⟨hs, hr, rfl, Or.inl rfl⟩
  | succ f ih =>
      intro lvl stack root hlen hs hr
      cases stack with
      | nil => exact ⟨hs, hr, rfl, Or.inl rfl⟩
      | cons e rest =>
          obtain ⟨s, cs⟩ := e
          have hok : LevelsOk (SNode.mk s cs) := by
            refine LevelsOk.mk s cs ?_ ?_
            · intro c hc
              exact (hs.2 (s, cs) (by simp) c hc).1
            · intro c hc
              exact (hs.2 (s, cs) (by simp) c hc).2
          by_cases hcond : lvl ≤ s.level
          · cases rest with
            | nil =>
                have heq : popGEF (f + 1) lvl [(s, cs)] root
                    = popGEF f lvl [] (root ++ [SNode.mk s cs]) := by
                  simp [popGEF, hcond]
                rw [heq]
                have hr' : RootInv (root ++ [SNode.mk s cs]) := by
                  intro n hn
                  rcases List.mem_append.mp hn with h | h
                  · exact hr n h
                  · rw [List.mem_singleton.mp h]
                    exact hok
                obtain ⟨a, b, c, d⟩ := ih lvl [] (root ++ [SNode.mk s cs])
                  (by simp) ⟨List.chain'_nil, by simp⟩ hr'
                refine ⟨a, b, ?_, d⟩
                rw [c]
                simp [flattenF_append, stackFlat_cons, stackFlat_nil, entFlat,
                  flattenF]
            | cons e2 r2 =>
                obtain ⟨s2, cs2⟩ := e2
                have heq : popGEF (f + 1) lvl ((s, cs) :: (s2, cs2) :: r2) root
                    = popGEF f lvl ((s2, cs2 ++ [SNode.mk s cs]) :: r2)
                      root := by
                  simp [popGEF, hcond]
                rw [heq]
                have hlt : s2.level < s.level :=
                  (List.chain'_cons.mp hs.1).1
                have hs' : StackInv ((s2, cs2 ++ [SNode.mk s cs]) :: r2) := by
                  constructor
                  · rw [List.chain'_cons']
                    have h2 := (List.chain'_cons.mp hs.1).2
                    rw [List.chain'_cons'] at h2
                    exact ⟨h2.1, h2.2⟩
                  · intro e he
                    rcases List.mem_cons.mp he with h | h
                    · subst h
                      intro c hc
                      rcases List.mem_append.mp hc with h1 | h1
                      · exact hs.2 (s2, cs2) (by simp) c h1
                      · rw [List.mem_singleton.mp h1]
                        exact ⟨hlt, hok⟩
                    · exact hs.2 e (by simp [h])
                have hlen' : ((s2, cs2 ++ [SNode.mk s cs]) :: r2).length ≤ f := by
                  simp at hlen ⊢
                  omega
                obtain ⟨a, b, c, d⟩ := ih lvl _ root hlen' hs' hr
                refine ⟨a, b, ?_, d⟩
                rw [c]
                simp [stackFlat_cons, entFlat, flattenF_append, flattenF]
          · have heq : popGEF (f + 1) lvl ((s, cs) :: rest) root
                = ((s, cs) :: rest, root) := by
              simp [popGEF, hcond]
            rw [heq]
            exact ⟨hs, hr, rfl, Or.inr ⟨(s, cs), rest, rfl, by
              show s.level < lvl
              omega⟩⟩

theorem nestStep_inv (stack : List (Section × List SNode)) (root : List SNode)
    (sec : Section) (hs : StackInv stack) (hr : RootInv root) :
    StackInv (nestStep (stack, root) sec).1 ∧
    RootInv (nestStep (stack, root) sec).2 ∧
    flattenF (nestStep (stack, root) sec).2
        ++ stackFlat (nestStep (stack, root) sec).1
      = (flattenF root ++ stackFlat stack) ++ [sec] := by
  obtain ⟨a, b, c, d⟩ := popGEF_inv stack.length sec.level stack root le_rfl
    hs hr
  have h1 : (nestStep (stack, root) sec).1
      = (sec, []) :: (popGEF stack.length sec.level stack root).1 := rfl
  have h2 : (nestStep (stack, root) sec).2
      = (popGEF stack.length sec.level stack root).2 := rfl
  rw [h1, h2]
  refine ⟨⟨?_, ?_⟩, b, ?_⟩
  · rw [List.chain'_cons']
    refine ⟨?_, a.1⟩
    intro y hy
    rcases d with h | ⟨e, rest, he, hlt⟩
    · rw [h] at hy
      simp at hy
    · rw [he] at hy
      simp at hy
      rw [← hy]
      exact hlt
  · intro e he
    rcases List.mem_cons.mp he with h | h
    · subst h
      intro c hc
      simp at hc
    · exact a.2 e h
  · rw [stackFlat_cons, show entFlat (sec, []) = [sec] from by
      simp [entFlat, flattenF], ← List.append_assoc, c]

theorem nestFold_inv : ∀ (secs : List Section)
    (stack : List (Section × List SNode)) (root : List SNode),
    StackInv stack → RootInv root →
    StackInv (secs.foldl nestStep (stack, root)).1 ∧
    RootInv (secs.foldl nestStep (stack, root)).2 ∧
    flattenF (secs.foldl nestStep (stack, root)).2
        ++ stackFlat (secs.foldl nestStep (stack, root)).1
      = (flattenF root ++ stackFlat stack) ++ secs := by
  intro secs
  induction secs with
  | nil =>
      intro stack root hs hr
      exact ⟨hs, hr, by simp⟩
  | cons sec secs ih =>
      intro stack root hs hr
      obtain ⟨a, b, c⟩ := nestStep_inv stack root sec hs hr
      rw [List.foldl_cons]
      have hpair : nestStep (stack, root) sec
          = ((nestStep (stack, root) sec).1, (nestStep (stack, root) sec).2) :=
        rfl
      rw [hpair]
      obtain ⟨a2, b2, c2⟩ := ih (nestStep (stack, root) sec).1
        (nestStep (stack, root) sec).2 a b
      refine ⟨a2, b2, ?_⟩
      rw [c2, c]
      simp

/-- C6: for every flat section list, the Hierarchy Builder produces a
forest in which every node's children all have strictly greater level than
the node (hereditarily, `LevelsOk`), and pre-order traversal of the forest
reproduces the original flat list exactly. -/
theorem c6_hierarchy_builder (sections : List Section) :
    (∀ n ∈ nest_sections_by_hierarchy sections, LevelsOk n) ∧
    flattenF (nest_sections_by_hierarchy sections) = sections := by
  obtain ⟨hs, hr, hflat⟩ := nestFold_inv sections [] []
    ⟨List.chain'_nil, by simp⟩ (by intro n hn; simp at hn)
  obtain ⟨hs2, hr2, hflat2, hpost⟩ := popGEF_inv
    (sections.foldl nestStep ([], [])).1.length 0
    (sections.foldl nestStep ([], [])).1
    (sections.foldl nestStep ([], [])).2 le_rfl hs hr
  have hnil : (popGEF (sections.foldl nestStep ([], [])).1.length 0
      (sections.foldl nestStep ([], [])).1
      (sections.foldl nestStep ([], [])).2).1 = [] := by
    rcases hpost with h | ⟨e, rest, he, hlt⟩
    · exact h
    · exact absurd hlt (by omega)
  constructor
  · exact hr2
  · have h3 := hflat2
    rw [hnil, stackFlat_nil, List.append_nil] at h3
    rw [nest_sections_by_hierarchy, h3, hflat]
    simp [flattenF, stackFlat_nil]

/-! ### Frame property of the Hierarchy Builder (C10)

To make Python-level mutation observable, `nestHeap` re-runs
`nest_sections_by_hierarchy` over an explicit object heap: dicts live at
addresses (list indices), `children = none` models a dict without a
`"children"` key, `node = dict(section); node['children'] = []` is the
allocation of a fresh copy at a fresh address, and
`stack[-1]['children'].append(node)` is an in-place update at the parent's
address, exactly as in the source.  The frame theorem states that the
prefix of the heap holding the pre-existing objects — in particular all the
input section dicts — survives unchanged. -/

/-- A Python dict with the five section fields and an optional
`children` key (`none` = no such key). -/
structure PyObj where
  fields : Section
  children : Option (List Nat)
deriving DecidableEq

def defaultObj : PyObj := ⟨⟨"", "", 0, 0, ""⟩, none⟩

/-- `heap[a]['level']`. -/
def heapLevel (heap : List PyObj) (a : Nat) : Nat :=
  (heap.getD a defaultObj).fields.level

/-- `while stack and stack[-1]['level'] >= lvl: stack.pop()`. -/
def popAddrs (heap : List PyObj) (lvl : Nat) (stack : List Nat) : List Nat :=
  stack.dropWhile fun a => lvl ≤ heapLevel heap a

/-- Attach the fresh node address `na` after popping: append it to the
popped-to parent's `children` (an in-place heap update) when the stack is
non-empty, else append it to the root list; then push it. -/
def nestHeapAttach (heap2 : List PyObj) (root stack2 : List Nat) (na : Nat) :
    List PyObj × List Nat × List Nat :=
  match stack2 with
  | parent :: _ =>
      (heap2.set parent
          ⟨(heap2.getD parent defaultObj).fields,
            some (((heap2.getD parent defaultObj).children.getD []) ++ [na])⟩,
        root, na :: stack2)
  | [] => (heap2, root ++ [na], na :: stack2)

/-- One iteration of the source loop (lines 50–60): allocate the fresh
copy `dict(section)` with an empty `children` list at the fresh address
`len(heap)`, pop down to the parent, attach, push. -/
def nestHeapStep (st : List PyObj × List Nat × List Nat) (a : Nat) :
    List PyObj × List Nat × List Nat :=
  nestHeapAttach
    (st.1 ++ [⟨(st.1.getD a defaultObj).fields, some []⟩])
    st.2.1
    (popAddrs (st.1 ++ [⟨(st.1.getD a defaultObj).fields, some []⟩])
      (heapLevel (st.1 ++ [⟨(st.1.getD a defaultObj).fields, some []⟩])
        st.1.length)
      st.2.2)
    st.1.length

/-- `nest_sections_by_hierarchy` over the heap: the final heap and the
root address list. -/
def nestHeap (heap : List PyObj) (input : List Nat) :
    List PyObj × List Nat :=
  ((input.foldl nestHeapStep (heap, [], [])).1,
    (input.foldl nestHeapStep (heap, [], [])).2.1)

theorem take_set_of_le : ∀ (l : List PyObj) (i : Nat) (v : PyObj) (n : Nat),
    n ≤ i → (l.set i v).take n = l.take n := by
  intro l
  induction l with
  | nil => intro i v n _; rfl
  | cons x l ih =>
      intro i v n h
      cases n with
      | zero => rfl
      | succ n =>
          cases i with
          | zero => omega
          | succ i =>
              rw [List.set_cons_succ, List.take_succ_cons, List.take_succ_cons,
                ih i v n (by omega)]

/-- The loop invariant: the heap only grows, its pre-existing prefix is
untouched, and every root / stack address is a fresh one. -/
def HeapInv (n0 : Nat) (heap0 : List PyObj)
    (st : List PyObj × List Nat × List Nat) : Prop :=
  n0 ≤ st.1.length ∧ st.1.take n0 = heap0 ∧
    (∀ r ∈ st.2.1, n0 ≤ r) ∧ (∀ a ∈ st.2.2, n0 ≤ a)

theorem nestHeapAttach_inv (n0 : Nat) (heap0 heap2 : List PyObj)
    (root stack2 : List Nat) (na : Nat)
    (hlen2 : n0 ≤ heap2.length) (htake2 : heap2.take n0 = heap0)
    (hroot : ∀ r ∈ root, n0 ≤ r) (hstack2 : ∀ x ∈ stack2, n0 ≤ x)
    (hna : n0 ≤ na) :
    HeapInv n0 heap0 (nestHeapAttach heap2 root stack2 na) := by
  cases stack2 with
  | nil =>
      refine ⟨hlen2, htake2, ?_, ?_⟩
      · intro r hr
        rcases List.mem_append.mp hr with h1 | h1
        · exact hroot r h1
        · rw [List.mem_singleton.mp h1]
          exact hna
      · intro x hx
        rcases List.mem_cons.mp hx with h1 | h1
        · subst h1
          exact hna
        · simp at h1
  | cons parent rest =>
      simp only [nestHeapAttach]
      refine ⟨?_, ?_, hroot, ?_⟩
      · rw [List.length_set]
        exact hlen2
      · rw [take_set_of_le _ parent _ n0 (hstack2 parent (by simp))]
        exact htake2
      · intro x hx
        rcases List.mem_cons.mp hx with h1 | h1
        · subst h1
          exact hna
        · exact hstack2 x h1

theorem nestHeapStep_inv (n0 : Nat) (heap0 : List PyObj)
    (st : List PyObj × List Nat × List Nat) (a : Nat)
    (h : HeapInv n0 heap0 st) : HeapInv n0 heap0 (nestHeapStep st a) := by
  obtain ⟨hlen, htake, hroot, hstack⟩ := h
  apply nestHeapAttach_inv
  · rw [List.length_append]
    omega
  · rw [List.take_append_of_le_length hlen]
    exact htake
  · exact hroot
  · intro x hx
    exact hstack x ((List.dropWhile_sublist _).subset hx)
  · exact hlen

theorem nestFoldHeap_inv : ∀ (input : List Nat) (n0 : Nat)
    (heap0 : List PyObj) (st : List PyObj × List Nat × List Nat),
    HeapInv n0 heap0 st → HeapInv n0 heap0 (input.foldl nestHeapStep st) := by
  intro input
  induction input with
  | nil =>
      intro n0 heap0 st h
      exact h
  | cons a input ih =>
      intro n0 heap0 st h
      rw [List.foldl_cons]
      exact ih n0 heap0 (nestHeapStep st a) (nestHeapStep_inv n0 heap0 st a h)

/-- C10: the Hierarchy Builder does not mutate its input: after `nestHeap`,
every pre-existing heap object — in particular every input section dict —
is exactly what it was (no field modified, still no `children` key), because
every output node is a fresh copy at a fresh address; accordingly every
produced root address is fresh. -/
theorem c10_no_input_mutation (heap : List PyObj) (input : List Nat) :
    (nestHeap heap input).1.take heap.length = heap ∧
    ∀ r ∈ (nestHeap heap input).2, heap.length ≤ r := by
  have h := nestFoldHeap_inv input heap.length heap (heap, [], [])
    ⟨le_rfl, List.take_length heap, by simp, by simp⟩
  exact ⟨h.2.1, h.2.2.1⟩
